import Mathlib

/-!
Shallow embedding of the gateway payload interception and capability
negotiation subsystem of the ReverseTk Vencord plugin
(`src/plugins/reverseTk/index.tsx`), together with proofs about its
behaviour: the inbound READY normalizer, the deep-copy helper, the
outgoing identify interception, the call-trace tree codec and renderer,
and the per-bit capability toggle.
-/

namespace ReverseTk

/-- A JavaScript runtime error (the only kind the code under study can raise
is `TypeError`). -/
inductive JsErr where
  | typeError (msg : String)
deriving DecidableEq

/-- Untyped JSON-like JavaScript values as handled by the inbound dispatch
normalizer.  Numbers are modelled as exact rationals; objects are ordered
association lists (JavaScript preserves string-key insertion order). -/
inductive Value where
  | null
  | undefined
  | bool (b : Bool)
  | num (q : ℚ)
  | str (s : String)
  | arr (elems : List Value)
  | obj (fields : List (String × Value))

/-- First binding of key `k` in an ordered field list (JavaScript property
lookup). -/
def lookupKey {α : Type} : List (String × α) → String → Option α
  | [], _ => none
  | (k', v) :: rest, k => if k' = k then some v else lookupKey rest k

/-- JavaScript property assignment on an ordered field list: an existing key
keeps its position, a new key is appended at the end. -/
def setKey {α : Type} : List (String × α) → String → α → List (String × α)
  | [], k, v => [(k, v)]
  | (k', v') :: rest, k, v =>
    if k' = k then (k, v) :: rest else (k', v') :: setKey rest k v

/-- JavaScript property read `v[k]`: reading from `null`/`undefined` throws a
`TypeError`, a missing key yields `undefined`.  Index/`length` properties of
arrays and strings are never read by the code under study and are not
modelled (the read yields `undefined`). -/
def readField : Value → String → Except JsErr Value
  | .null, _ => .error (.typeError "Cannot read properties of null")
  | .undefined, _ => .error (.typeError "Cannot read properties of undefined")
  | .obj fs, k => .ok ((lookupKey fs k).getD .undefined)
  | _, _ => .ok .undefined

/-- JavaScript property write `v[k] = x` in strict mode: writing to anything
but an object throws a `TypeError`.  (Property writes on array objects do not
occur in the code under study and are not modelled.) -/
def writeField : Value → String → Value → Except JsErr Value
  | .obj fs, k, x => .ok (.obj (setKey fs k x))
  | _, _, _ => .error (.typeError "Cannot create property")

/-- The JavaScript `in` operator `k in v`: throws a `TypeError` unless the
right operand is an object.  (Arrays are objects in JavaScript; guild records
that are arrays do not occur and are treated as errors here.) -/
def hasProp : Value → String → Except JsErr Bool
  | .obj fs, k => .ok (lookupKey fs k).isSome
  | _, _ => .error (.typeError "Cannot use in operator on non-object")

/-- The JavaScript `in` operator applied to an *array* of length `n` — as in
`key! in outerFields` in the source: it tests whether `key` is a property of
the array object, i.e. a canonical index string `"0" .. "n-1"` or `"length"`,
not whether `key` is an element of the array.  Inherited `Array.prototype`
method names would also test true; they never occur as guild field names and
are not modelled. -/
def jsInArray (k : String) (n : Nat) : Bool :=
  decide (k = "length") || (List.range n).any fun i => decide (k = toString i)

/-- The `outerFields` allowlist declared inside the guild loop of
`_interceptIncomingDispatchPayload`. -/
def outerFields : List String :=
  ["id", "data_mode", "partial_updates", "channel_updates",
   "guild_scheduled_events", "joined_at", "last_messages", "member_count",
   "members", "premium_subscription_count", "roles", "stage_instances",
   "unable_to_sync_deletes", "threads", "version", "has_threads_subscription",
   "stickers", "presences", "activity_instances", "voice_states"]

/-- One iteration of the guild loop of `_interceptIncomingDispatchPayload`:
records that already have a `properties` key are skipped; otherwise every
field whose name is a *property of the `outerFields` array object* (the
source tests `key! in outerFields`, which checks array indices and `length`,
not membership) is moved into a fresh `properties` record appended at the
end.  `Object.keys` snapshots the key list, so the partition is over the
original fields. -/
def fixGuild (g : Value) : Except JsErr Value :=
  match hasProp g "properties" with
  | .error e => .error e
  | .ok true => .ok g
  | .ok false =>
    match g with
    | .obj fs =>
      let moved := fs.filter fun kv => jsInArray kv.1 outerFields.length
      let kept := fs.filter fun kv => !jsInArray kv.1 outerFields.length
      .ok (.obj (kept ++ [("properties", .obj moved)]))
    | _ => .error (.typeError "unreachable: in succeeded on a non-object")

/-- The legacy-shape rewrite of `_interceptIncomingDispatchPayload`: if field
`k` of `data` is an array, it is wrapped in place as
`{entries: ..., partial: false, version: 1}`; otherwise `data` is untouched. -/
def wrapVersioned (data : Value) (k : String) : Except JsErr Value :=
  match readField data k with
  | .error e => .error e
  | .ok (.arr xs) =>
    writeField data k
      (.obj [("entries", .arr xs), ("partial", .bool false), ("version", .num 1)])
  | .ok _ => .ok data

/-- Effectful map modelling the guild `for`-loop: it stops at the first
thrown error. -/
def mapE {α β : Type} (f : α → Except JsErr β) : List α → Except JsErr (List β)
  | [] => .ok []
  | a :: rest =>
    match f a with
    | .error e => .error e
    | .ok b =>
      match mapE f rest with
      | .error e => .error e
      | .ok bs => .ok (b :: bs)

/-- `for (x of s)` over a JavaScript string yields its characters as fresh
one-character strings. -/
def strElems (s : String) : List Value :=
  s.toList.map fun c => .str (String.mk [c])

/-- Shallow embedding of `_interceptIncomingDispatchPayload`, the READY branch
of the inbound pipeline.  `fixReady` is the `settings.store.fixReady` setting.
The source mutates `data` in place and returns `[type, data]`; here the
updated value is returned.  `for (const guildData of data.guilds)` throws a
`TypeError` when `data.guilds` is not iterable; arrays and strings are the
only iterables that can appear here.  When `guilds` is a string the loop runs
over fresh one-character strings, so `data` itself is returned as already
updated by the two wraps. -/
def _interceptIncomingDispatchPayload (fixReady : Bool) (type : String)
    (data : Value) : Except JsErr (String × Value) :=
  if type = "READY" ∧ fixReady = true then
    match wrapVersioned data "read_state" with
    | .error e => .error e
    | .ok d1 =>
      match wrapVersioned d1 "user_guild_settings" with
      | .error e => .error e
      | .ok d2 =>
        match readField d2 "guilds" with
        | .error e => .error e
        | .ok (.arr gs) =>
          match mapE fixGuild gs with
          | .error e => .error e
          | .ok gs' =>
            match writeField d2 "guilds" (.arr gs') with
            | .error e => .error e
            | .ok d3 => .ok (type, d3)
        | .ok (.str s) =>
          match mapE fixGuild (strElems s) with
          | .error e => .error e
          | .ok _ => .ok (type, d2)
        | .ok _ => .error (.typeError "data.guilds is not iterable")
  else .ok (type, data)

/-- The per-bit capability toggle from the `Checkbox` `onChange` handler in
`ReverseTkModalContent`: `if (capabilities & value) capabilities &= ~value;
else capabilities |= value;` with `value = 1 << k`.  JavaScript bitwise
operators work on 32-bit patterns; bitmasks are modelled as naturals below
`2 ^ 32` and `~value` as complement within 32 bits. -/
def toggleCapabilityBit (caps : Nat) (k : Nat) : Nat :=
  let value := 2 ^ k
  if caps &&& value ≠ 0 then caps &&& ((2 ^ 32 - 1) ^^^ value) else caps ||| value

/-- The wire encoding of one call-trace payload `{micros, calls?}`: an absent
`calls` key is `none`, a present (possibly empty) tuple list is `some`.
JavaScript strings are modelled as lists of characters here because the
renderer splits and joins them on newlines. -/
inductive WirePayload where
  | mk (micros : ℚ) (calls : Option (List (List Char × WirePayload)))

/-- The `CallTrace` class: a name, a duration in milliseconds and the child
traces. -/
inductive CallTrace where
  | mk (name : List Char) (duration : ℚ) (calls : List CallTrace)

/-- `name` field of a `CallTrace`. -/
def CallTrace.name : CallTrace → List Char
  | .mk n _ _ => n

/-- `duration` field of a `CallTrace`. -/
def CallTrace.duration : CallTrace → ℚ
  | .mk _ d _ => d

/-- `calls` field of a `CallTrace`. -/
def CallTrace.calls : CallTrace → List CallTrace
  | .mk _ _ cs => cs

/-- The `CallTrace` constructor: `duration = micros / 1000` and children built
recursively from `data.calls || []` (an absent key yields no children). -/
def CallTrace.ofWire (name : List Char) (data : WirePayload) : CallTrace :=
  match data with
  | .mk micros none => .mk name (micros / 1000) []
  | .mk micros (some l) =>
    .mk name (micros / 1000) (l.attach.map fun nd => CallTrace.ofWire nd.1.1 nd.1.2)
termination_by sizeOf data
decreasing_by
  simp_wf
  have h1 := List.sizeOf_lt_of_mem nd.2
  obtain ⟨⟨a, b⟩, hm⟩ := nd
  simp_all
  omega

/-- `CallTrace.toData`: `[name, {micros: Math.round(duration * 1000), calls}]`;
the `calls` key is always emitted, possibly as an empty list.  `Math.round`
and Mathlib `round` agree: both are `floor (x + 1/2)`. -/
def CallTrace.toData : CallTrace → List Char × WirePayload
  | .mk name dur cs =>
    (name, .mk ((round (dur * 1000) : ℤ) : ℚ)
      (some (cs.attach.map fun c => CallTrace.toData c.1)))
termination_by t => sizeOf t
decreasing_by
  simp_wf
  have h1 := List.sizeOf_lt_of_mem c.2
  omega

/-- Conversion of a whole wire tuple list to `CallTrace` nodes (the spec
calls this `fromWire`). -/
def fromWire (t : List (List Char × WirePayload)) : List CallTrace :=
  t.map fun nd => CallTrace.ofWire nd.1 nd.2

/-- Serialization of a node list back to the wire encoding (the spec calls
this `toWire`). -/
def toWire (ns : List CallTrace) : List (List Char × WirePayload) :=
  ns.map CallTrace.toData

/-- Every `micros` value in a tuple tree is an integer. -/
def WirePayload.microsIntegral : WirePayload → Bool
  | .mk m none => decide (m.den = 1)
  | .mk m (some l) =>
    decide (m.den = 1) && (l.attach.all fun nd => nd.1.2.microsIntegral)
termination_by p => sizeOf p
decreasing_by
  simp_wf
  have h1 := List.sizeOf_lt_of_mem nd.2
  obtain ⟨⟨a, b⟩, hm⟩ := nd
  simp_all
  omega

/-- Every payload in a tuple tree carries an explicit `calls` key. -/
def WirePayload.callsPresent : WirePayload → Bool
  | .mk _ none => false
  | .mk _ (some l) => l.attach.all fun nd => nd.1.2.callsPresent
termination_by p => sizeOf p
decreasing_by
  simp_wf
  have h1 := List.sizeOf_lt_of_mem nd.2
  obtain ⟨⟨a, b⟩, hm⟩ := nd
  simp_all
  omega

/-- Canonical form of a payload: every absent `calls` key becomes an explicit
empty list. -/
def WirePayload.canon : WirePayload → WirePayload
  | .mk m none => .mk m (some [])
  | .mk m (some l) =>
    .mk m (some (l.attach.map fun nd => (nd.1.1, nd.1.2.canon)))
termination_by p => sizeOf p
decreasing_by
  simp_wf
  have h1 := List.sizeOf_lt_of_mem nd.2
  obtain ⟨⟨a, b⟩, hm⟩ := nd
  simp_all
  omega

/-- Decimal digit character. -/
def digitCh (d : Nat) : Char :=
  match d % 10 with
  | 0 => '0'
  | 1 => '1'
  | 2 => '2'
  | 3 => '3'
  | 4 => '4'
  | 5 => '5'
  | 6 => '6'
  | 7 => '7'
  | 8 => '8'
  | _ => '9'

/-- Decimal numeral of a natural number. -/
def natDigits (n : Nat) : List Char :=
  if n < 10 then [digitCh n] else natDigits (n / 10) ++ [digitCh (n % 10)]

/-- Rendering of the interpolated `call.duration`.  JavaScript float
formatting is abstracted by an exact rendering that agrees with JavaScript on
integral values; the renderer facts proved below only need that it never
contains a newline. -/
def showQ (q : ℚ) : List Char :=
  (if q.num < 0 then ['-'] else []) ++ natDigits q.num.natAbs ++
    (if q.den = 1 then [] else '/' :: natDigits q.den)

/-- The indentation unit `"|  "` of the tree renderer. -/
def indentPre : List Char := ['|', ' ', ' ']

/-- One child block of `buildTree`: the JavaScript
`buildTree([subCall]).split('\n').map(line => ...).join('\n')`. -/
def indentBlock (s : List Char) : List Char :=
  List.intercalate ['\n'] ((s.splitOn '\n').map fun l => indentPre ++ l)

/-- Shallow embedding of `buildTree`: for each trace append
`name: duration` and a newline and, when there are children, the
newline-join of the indented singleton renderings of the children. -/
def buildTree : List CallTrace → List Char
  | [] => []
  | .mk nm du cs :: rest =>
    (nm ++ [':', ' '] ++ showQ du ++ ['\n'] ++
      (if cs.isEmpty then [] else
        List.intercalate ['\n'] (cs.attach.map fun s => indentBlock (buildTree [s.1]))))
      ++ buildTree rest
termination_by l => sizeOf l
decreasing_by
  · simp_wf
    have h1 := List.sizeOf_lt_of_mem s.2
    simp_all [CallTrace.mk.sizeOf_spec]
    omega
  · simp_wf

/-- The indentation prefix for depth `d`. -/
def dupPre (d : Nat) : List Char := (List.replicate d indentPre).flatten

/-- The lines of `buildTree [c]`, defined directly by recursion; proved below
to equal the newline split of `buildTree [c]`. -/
def linesOf : CallTrace → List (List Char)
  | .mk nm du cs =>
    (nm ++ [':', ' '] ++ showQ du) ::
      (if cs.isEmpty then [[]] else
        (cs.attach.map fun s => (linesOf s.1).map fun l => indentPre ++ l).flatten)
termination_by c => sizeOf c
decreasing_by
  simp_wf
  have h1 := List.sizeOf_lt_of_mem s.2
  omega

/-- The node lines of a trace in preorder, each with the depth-proportional
prefix the specification describes. -/
def preorderLines (d : Nat) : CallTrace → List (List Char)
  | .mk nm du cs =>
    (dupPre d ++ nm ++ [':', ' '] ++ showQ du) ::
      (cs.attach.map fun s => preorderLines (d + 1) s.1).flatten
termination_by c => sizeOf c
decreasing_by
  simp_wf
  have h1 := List.sizeOf_lt_of_mem s.2
  omega

/-- No name inside the trace contains a newline. -/
def namesOk : CallTrace → Bool
  | .mk nm _ cs =>
    decide ('\n' ∉ nm) && (cs.attach.all fun s => namesOk s.1)
termination_by c => sizeOf c
decreasing_by
  simp_wf
  have h1 := List.sizeOf_lt_of_mem s.2
  omega

/-- JavaScript values as handled by the deep-copy helper `copy` and by
`_interceptOutgoingPayload`.  Containers and functions carry an abstract heap
address so that reference identity and freshness are expressible; `fnWrap` is
the forwarding closure `(...args) => obj(...args)` produced by `copy`,
remembering the behaviour identifier of the function it delegates to.  A
record prototype of `none` models the base object prototype. -/
inductive LValue where
  | null
  | undefined
  | bool (b : Bool)
  | num (q : ℚ)
  | str (s : String)
  | bigI (z : ℤ)
  | fn (addr : Nat) (fid : Nat)
  | fnWrap (addr : Nat) (fid : Nat)
  | arr (addr : Nat) (elems : List LValue)
  | obj (addr : Nat) (proto : Option Nat) (fields : List (String × LValue))

mutual

/-- Shallow embedding of `copy`, threading a fresh-address counter:
`null`/`undefined` and bigint/boolean/number/string primitives are returned
unchanged; a function becomes a fresh forwarding wrapper; an array is copied
element-wise; a record is copied key-by-key, and keeps the prototype of the
original (the source re-assigns `__proto__` exactly when it is not the base
object prototype, which leaves the prototype of the copy equal to that of the
original in every case). -/
def copy : LValue → Nat → LValue × Nat
  | .null, n => (.null, n)
  | .undefined, n => (.undefined, n)
  | .bool b, n => (.bool b, n)
  | .num q, n => (.num q, n)
  | .str s, n => (.str s, n)
  | .bigI z, n => (.bigI z, n)
  | .fn _ fid, n => (.fnWrap n fid, n + 1)
  | .fnWrap _ fid, n => (.fnWrap n fid, n + 1)
  | .arr _ xs, n =>
    let r := copyList xs (n + 1)
    (.arr n r.1, r.2)
  | .obj _ proto fs, n =>
    let r := copyFields fs (n + 1)
    (.obj n proto r.1, r.2)

/-- `obj.map(copy)`, threading the address counter. -/
def copyList : List LValue → Nat → List LValue × Nat
  | [], n => ([], n)
  | v :: rest, n =>
    let rv := copy v n
    let rr := copyList rest rv.2
    (rv.1 :: rr.1, rr.2)

/-- The `Object.entries` loop of `copy`, threading the address counter. -/
def copyFields : List (String × LValue) → Nat → List (String × LValue) × Nat
  | [], n => ([], n)
  | (k, v) :: rest, n =>
    let rv := copy v n
    let rr := copyFields rest rv.2
    ((k, rv.1) :: rr.1, rr.2)

end

mutual

/-- The container/function addresses occurring in a value. -/
def addrs : LValue → List Nat
  | .null => []
  | .undefined => []
  | .bool _ => []
  | .num _ => []
  | .str _ => []
  | .bigI _ => []
  | .fn a _ => [a]
  | .fnWrap a _ => [a]
  | .arr a xs => a :: addrsList xs
  | .obj a _ fs => a :: addrsFields fs

/-- Addresses of a list of values. -/
def addrsList : List LValue → List Nat
  | [] => []
  | v :: rest => addrs v ++ addrsList rest

/-- Addresses of a field list. -/
def addrsFields : List (String × LValue) → List Nat
  | [] => []
  | (_, v) :: rest => addrs v ++ addrsFields rest

end

/-- Address-free structural view of a value.  A function and its forwarding
wrapper erase to the same behaviour identifier, because the wrapper delegates
every call to the original. -/
inductive EValue where
  | null
  | undefined
  | bool (b : Bool)
  | num (q : ℚ)
  | str (s : String)
  | bigI (z : ℤ)
  | efn (fid : Nat)
  | arr (elems : List EValue)
  | obj (proto : Option Nat) (fields : List (String × EValue))

mutual

/-- Structural erasure of the addresses of a value. -/
def erase : LValue → EValue
  | .null => .null
  | .undefined => .undefined
  | .bool b => .bool b
  | .num q => .num q
  | .str s => .str s
  | .bigI z => .bigI z
  | .fn _ fid => .efn fid
  | .fnWrap _ fid => .efn fid
  | .arr _ xs => .arr (eraseList xs)
  | .obj _ proto fs => .obj proto (eraseFields fs)

/-- Erasure of a list of values. -/
def eraseList : List LValue → List EValue
  | [] => []
  | v :: rest => erase v :: eraseList rest

/-- Erasure of a field list. -/
def eraseFields : List (String × LValue) → List (String × EValue)
  | [] => []
  | (k, v) :: rest => (k, erase v) :: eraseFields rest

end

/-- Calling a value as a function, with `env` giving the behaviour of every
original function: the forwarding wrapper `(...args) => obj(...args)` passes
all arguments through to the function it wraps and returns its result;
non-functions cannot be called. -/
def applyFn (env : Nat → List LValue → LValue) :
    LValue → List LValue → Option LValue
  | .fn _ fid, args => some (env fid args)
  | .fnWrap _ fid, args => some (env fid args)
  | _, _ => none

/-- JavaScript property read on the outgoing side (`data.capabilities`):
`null`/`undefined` receivers throw, a missing key yields `undefined`. -/
def readFieldL : LValue → String → Except JsErr LValue
  | .null, _ => .error (.typeError "Cannot read properties of null")
  | .undefined, _ => .error (.typeError "Cannot read properties of undefined")
  | .obj _ _ fs, k => .ok ((lookupKey fs k).getD .undefined)
  | _, _ => .ok .undefined

/-- Strict-mode property write on the outgoing side
(`data.capabilities = capabilities`): only records accept it, and the write
keeps the record identity (no fresh address).  Identify payloads are records;
writes to arrays do not occur and are not modelled. -/
def writeFieldL : LValue → String → LValue → Except JsErr LValue
  | .obj a p fs, k, v => .ok (.obj a p (setKey fs k v))
  | _, _, _ => .error (.typeError "Cannot create property")

/-- Shallow embedding of `_interceptOutgoingPayload`.  The module-level
`capabilities` variable is passed and returned explicitly (`.undefined` models
its unset state, exactly the `capabilities === undefined` test of the
source), together with the fresh-address counter used by `copy`.
`checkSessionEstablished` defaults to `true` when omitted.  On an identify
(`opcode === 2`) the bitmask is captured only if currently unset, then `data`
is deep-copied and the copy gets its `capabilities` field overwritten with
the stored bitmask; all other opcodes pass through untouched. -/
def _interceptOutgoingPayload (caps : LValue) (n : Nat) (opcode : ℚ)
    (data : LValue) (checkSessionEstablished : Option Bool) :
    Except JsErr ((LValue × Nat) × (ℚ × LValue × Bool)) :=
  let check := checkSessionEstablished.getD true
  if opcode = 2 then
    match (match caps with
           | .undefined => readFieldL data "capabilities"
           | _ => .ok caps) with
    | .error e => .error e
    | .ok caps2 =>
      let r := copy data n
      match writeFieldL r.1 "capabilities" caps2 with
      | .error e => .error e
      | .ok d2 => .ok ((caps2, r.2), (opcode, d2, check))
  else .ok ((caps, n), (opcode, data, check))

-- ===== THEOREMS =====

theorem lookupKey_setKey_self {α : Type} (fs : List (String × α)) (k : String) (v : α) :
    lookupKey (setKey fs k v) k = some v := by
  induction fs with
  | nil => simp [setKey, lookupKey]
  | cons kv rest ih =>
    obtain ⟨k', v'⟩ := kv
    by_cases h : k' = k <;> simp [setKey, lookupKey, h, ih]

theorem lookupKey_setKey_other {α : Type} (fs : List (String × α)) (k k2 : String) (v : α)
    (h : k ≠ k2) : lookupKey (setKey fs k v) k2 = lookupKey fs k2 := by
  induction fs with
  | nil => simp [setKey, lookupKey, h]
  | cons kv rest ih =>
    obtain ⟨k', v'⟩ := kv
    by_cases h2 : k' = k
    · subst h2
      simp [setKey, lookupKey, h]
    · simp [setKey, lookupKey, h2, ih]

theorem setKey_eq_of_lookup {α : Type} (fs : List (String × α)) (k : String) (v : α)
    (h : lookupKey fs k = some v) : setKey fs k v = fs := by
  induction fs with
  | nil => simp [lookupKey] at h
  | cons kv rest ih =>
    obtain ⟨k', v'⟩ := kv
    by_cases h2 : k' = k
    · subst h2
      simp [lookupKey] at h
      simp [setKey, h]
    · simp [lookupKey, h2] at h
      simp [setKey, h2, ih h]

theorem lookupKey_filter_none {α : Type} (fs : List (String × α)) (k : String)
    (p : String × α → Bool) (h : lookupKey fs k = none) :
    lookupKey (fs.filter p) k = none := by
  induction fs with
  | nil => simp [lookupKey]
  | cons kv rest ih =>
    obtain ⟨k', v'⟩ := kv
    by_cases h2 : k' = k
    · simp [lookupKey, h2] at h
    · simp only [lookupKey, if_neg h2] at h
      by_cases hp : p (k', v') <;>
        simp [List.filter_cons, hp, lookupKey, h2, ih h]

theorem lookupKey_append_none {α : Type} (l1 l2 : List (String × α)) (k : String)
    (h : lookupKey l1 k = none) : lookupKey (l1 ++ l2) k = lookupKey l2 k := by
  induction l1 with
  | nil => simp
  | cons kv rest ih =>
    obtain ⟨k', v'⟩ := kv
    by_cases h2 : k' = k
    · simp [lookupKey, h2] at h
    · simp only [lookupKey, if_neg h2] at h
      simp [lookupKey, h2, ih h]

theorem mapE_id (f : Value → Except JsErr Value) (l : List Value)
    (h : ∀ a ∈ l, f a = .ok a) : mapE f l = .ok l := by
  induction l with
  | nil => rfl
  | cons a rest ih =>
    simp [mapE, h a (by simp), ih fun b hb => h b (by simp [hb])]

theorem mapE_mem {α β : Type} (f : α → Except JsErr β) (l : List α) (l' : List β)
    (h : mapE f l = .ok l') : ∀ b ∈ l', ∃ a ∈ l, f a = .ok b := by
  induction l generalizing l' with
  | nil =>
    simp [mapE] at h
    subst h
    simp
  | cons a rest ih =>
    cases hfa : f a with
    | error e => simp [mapE, hfa] at h
    | ok b =>
      cases hrest : mapE f rest with
      | error e => simp [mapE, hfa, hrest] at h
      | ok bs =>
        simp [mapE, hfa, hrest] at h
        subst h
        intro c hc
        rcases List.mem_cons.mp hc with hc | hc
        · exact ⟨a, by simp, by rw [hfa, hc]⟩
        · obtain ⟨a2, ha2, hfa2⟩ := ih bs hrest c hc
          exact ⟨a2, by simp [ha2], hfa2⟩

theorem fixGuild_hasProp (g g' : Value) (h : fixGuild g = .ok g') :
    hasProp g' "properties" = .ok true := by
  cases g with
  | obj fs =>
    cases hl : lookupKey fs "properties" with
    | some v =>
      simp [fixGuild, hasProp, hl] at h
      subst h
      simp [hasProp, hl]
    | none =>
      simp [fixGuild, hasProp, hl] at h
      subst h
      have h1 : lookupKey (fs.filter fun kv => !jsInArray kv.1 outerFields.length)
          "properties" = none := lookupKey_filter_none fs _ _ hl
      simp [hasProp, lookupKey_append_none _ _ _ h1, lookupKey]
  | null => simp [fixGuild, hasProp] at h
  | undefined => simp [fixGuild, hasProp] at h
  | bool b => simp [fixGuild, hasProp] at h
  | num q => simp [fixGuild, hasProp] at h
  | str s => simp [fixGuild, hasProp] at h
  | arr xs => simp [fixGuild, hasProp] at h

theorem fixGuild_idem (g g' : Value) (h : fixGuild g = .ok g') :
    fixGuild g' = .ok g' := by
  have hp := fixGuild_hasProp g g' h
  unfold fixGuild
  rw [hp]

theorem wrapVersioned_obj (fs : List (String × Value)) (k : String) :
    ∃ fs2, wrapVersioned (.obj fs) k = .ok (.obj fs2) ∧
      (∀ k2, k2 ≠ k → lookupKey fs2 k2 = lookupKey fs k2) ∧
      ∀ xs, lookupKey fs2 k ≠ some (.arr xs) := by
  cases hl : lookupKey fs k with
  | none =>
    exact ⟨fs, by simp [wrapVersioned, readField, hl], fun k2 _ => rfl, by simp [hl]⟩
  | some v =>
    cases v with
    | arr xs =>
      refine ⟨setKey fs k
        (.obj [("entries", .arr xs), ("partial", .bool false), ("version", .num 1)]),
        by simp [wrapVersioned, readField, hl, writeField], fun k2 h2 =>
          lookupKey_setKey_other fs k k2 _ fun hk => h2 hk.symm, fun ys => ?_⟩
      rw [lookupKey_setKey_self]
      simp
    | null => exact ⟨fs, by simp [wrapVersioned, readField, hl], fun k2 _ => rfl, by simp [hl]⟩
    | undefined => exact ⟨fs, by simp [wrapVersioned, readField, hl], fun k2 _ => rfl, by simp [hl]⟩
    | bool b => exact ⟨fs, by simp [wrapVersioned, readField, hl], fun k2 _ => rfl, by simp [hl]⟩
    | num q => exact ⟨fs, by simp [wrapVersioned, readField, hl], fun k2 _ => rfl, by simp [hl]⟩
    | str s => exact ⟨fs, by simp [wrapVersioned, readField, hl], fun k2 _ => rfl, by simp [hl]⟩
    | obj fs3 => exact ⟨fs, by simp [wrapVersioned, readField, hl], fun k2 _ => rfl, by simp [hl]⟩

theorem wrapVersioned_of_not_arr (fs : List (String × Value)) (k : String)
    (h : ∀ xs, lookupKey fs k ≠ some (.arr xs)) :
    wrapVersioned (.obj fs) k = .ok (.obj fs) := by
  cases hl : lookupKey fs k with
  | none => simp [wrapVersioned, readField, hl]
  | some v =>
    cases v with
    | arr xs => exact absurd hl (h xs)
    | null => simp [wrapVersioned, readField, hl]
    | undefined => simp [wrapVersioned, readField, hl]
    | bool b => simp [wrapVersioned, readField, hl]
    | num q => simp [wrapVersioned, readField, hl]
    | str s => simp [wrapVersioned, readField, hl]
    | obj fs3 => simp [wrapVersioned, readField, hl]
/-- C4: for every READY payload with normalization enabled, applying the
READY branch of `_interceptIncomingDispatchPayload` twice yields the same
result as applying it once: wrapped `read_state`/`user_guild_settings` are
not wrapped again and guilds that already carry a `properties` key are left
unchanged; errors propagate identically. -/
theorem ready_normalizer_idempotent (d : Value) :
    (match _interceptIncomingDispatchPayload true "READY" d with
      | .ok td => _interceptIncomingDispatchPayload true td.1 td.2
      | .error e => .error e) =
    _interceptIncomingDispatchPayload true "READY" d := by
  cases d with
  | null => simp [_interceptIncomingDispatchPayload, wrapVersioned, readField]
  | undefined => simp [_interceptIncomingDispatchPayload, wrapVersioned, readField]
  | bool b => simp [_interceptIncomingDispatchPayload, wrapVersioned, readField]
  | num q => simp [_interceptIncomingDispatchPayload, wrapVersioned, readField]
  | str s => simp [_interceptIncomingDispatchPayload, wrapVersioned, readField]
  | arr xs => simp [_interceptIncomingDispatchPayload, wrapVersioned, readField]
  | obj fs =>
    obtain ⟨fs1, hw1, hpres1, hnarr1⟩ := wrapVersioned_obj fs "read_state"
    obtain ⟨fs2, hw2, hpres2, hnarr2⟩ := wrapVersioned_obj fs1 "user_guild_settings"
    have hrs2 : ∀ xs, lookupKey fs2 "read_state" ≠ some (.arr xs) := by
      intro xs
      rw [hpres2 "read_state" (by decide)]
      exact hnarr1 xs
    cases hg : lookupKey fs2 "guilds" with
    | none =>
      simp [_interceptIncomingDispatchPayload, hw1, hw2, readField, hg]
    | some gv =>
      cases gv with
      | arr gs =>
        cases hm : mapE fixGuild gs with
        | error e =>
          simp [_interceptIncomingDispatchPayload, hw1, hw2, readField, hg, hm]
        | ok gs' =>
          have hrw1 : wrapVersioned (.obj (setKey fs2 "guilds" (.arr gs')))
              "read_state" = .ok (.obj (setKey fs2 "guilds" (.arr gs'))) := by
            apply wrapVersioned_of_not_arr
            intro xs
            rw [lookupKey_setKey_other fs2 "guilds" "read_state" _ (by decide)]
            exact hrs2 xs
          have hrw2 : wrapVersioned (.obj (setKey fs2 "guilds" (.arr gs')))
              "user_guild_settings" = .ok (.obj (setKey fs2 "guilds" (.arr gs'))) := by
            apply wrapVersioned_of_not_arr
            intro xs
            rw [lookupKey_setKey_other fs2 "guilds" "user_guild_settings" _ (by decide)]
            exact hnarr2 xs
          have hg2 : lookupKey (setKey fs2 "guilds" (.arr gs')) "guilds" =
              some (.arr gs') := lookupKey_setKey_self fs2 "guilds" (.arr gs')
          have hm2 : mapE fixGuild gs' = .ok gs' := by
            apply mapE_id
            intro a ha
            obtain ⟨g, _, hfix⟩ := mapE_mem fixGuild gs gs' hm a ha
            exact fixGuild_idem g a hfix
          have hset2 : setKey (setKey fs2 "guilds" (.arr gs')) "guilds" (.arr gs') =
              setKey fs2 "guilds" (.arr gs') := setKey_eq_of_lookup _ _ _ hg2
          simp [_interceptIncomingDispatchPayload, hw1, hw2, readField, hg, hm,
            writeField, hrw1, hrw2, hg2, hm2, hset2]
      | str s =>
        cases hm : mapE fixGuild (strElems s) with
        | error e =>
          simp [_interceptIncomingDispatchPayload, hw1, hw2, readField, hg, hm]
        | ok u =>
          have hrw1 : wrapVersioned (.obj fs2) "read_state" = .ok (.obj fs2) :=
            wrapVersioned_of_not_arr fs2 "read_state" hrs2
          have hrw2 : wrapVersioned (.obj fs2) "user_guild_settings" =
              .ok (.obj fs2) := wrapVersioned_of_not_arr fs2 "user_guild_settings" hnarr2
          simp [_interceptIncomingDispatchPayload, hw1, hw2, readField, hg, hm,
            hrw1, hrw2]
      | null => simp [_interceptIncomingDispatchPayload, hw1, hw2, readField, hg]
      | undefined => simp [_interceptIncomingDispatchPayload, hw1, hw2, readField, hg]
      | bool b => simp [_interceptIncomingDispatchPayload, hw1, hw2, readField, hg]
      | num q => simp [_interceptIncomingDispatchPayload, hw1, hw2, readField, hg]
      | obj fs3 => simp [_interceptIncomingDispatchPayload, hw1, hw2, readField, hg]
/-- C1: evaluation of the code at the claimed input.  The guild record
`{id: "1", member_count: 5, name: "G"}` is NOT rewritten to
`{name: "G", properties: {id: "1", member_count: 5}}` as the claim (and the
intent of the `outerFields` allowlist) demands: because `key! in outerFields`
tests JavaScript array indices rather than membership, no field is moved and
an empty `properties` record is attached instead. -/
theorem ready_guild_partition_code_behavior :
    _interceptIncomingDispatchPayload true "READY"
      (.obj [("guilds", .arr [.obj [("id", .str "1"), ("member_count", .num 5),
        ("name", .str "G")]])]) =
    .ok ("READY", .obj [("guilds", .arr [.obj [("id", .str "1"),
      ("member_count", .num 5), ("name", .str "G"), ("properties", .obj [])]])]) ∧
    _interceptIncomingDispatchPayload true "READY"
      (.obj [("guilds", .arr [.obj [("id", .str "1"), ("member_count", .num 5),
        ("name", .str "G")]])]) ≠
    .ok ("READY", .obj [("guilds", .arr [.obj [("name", .str "G"),
      ("properties", .obj [("id", .str "1"), ("member_count", .num 5)])]])]) := by
  have h1 : _interceptIncomingDispatchPayload true "READY"
      (.obj [("guilds", .arr [.obj [("id", .str "1"), ("member_count", .num 5),
        ("name", .str "G")]])]) =
      .ok ("READY", .obj [("guilds", .arr [.obj [("id", .str "1"),
        ("member_count", .num 5), ("name", .str "G"), ("properties", .obj [])]])]) := rfl
  refine ⟨h1, ?_⟩
  rw [h1]
  simp

/-- C2 counterexample: a READY payload without a `guilds` field makes
`_interceptIncomingDispatchPayload` throw a `TypeError` at the `for`-`of`
loop instead of passing the event through unmodified, refuting the claim that
no input causes an uncontrolled crash. -/
theorem ready_crash_counterexample :
    _interceptIncomingDispatchPayload true "READY" (.obj [("v", .num 9)]) =
    .error (.typeError "data.guilds is not iterable") := rfl

/-- C2 amended: non-READY dispatches and dispatches with normalization
disabled pass through unchanged, but a READY record payload whose `guilds`
key is absent makes the normalizer throw; malformed payloads are not skipped. -/
theorem ready_missing_guilds_throws (t : String) (d : Value)
    (fs : List (String × Value)) :
    (t ≠ "READY" → _interceptIncomingDispatchPayload true t d = .ok (t, d)) ∧
    _interceptIncomingDispatchPayload false t d = .ok (t, d) ∧
    (lookupKey fs "guilds" = none →
      ∃ e, _interceptIncomingDispatchPayload true "READY" (.obj fs) = .error e) := by
  refine ⟨fun ht => ?_, ?_, fun hg => ?_⟩
  · simp [_interceptIncomingDispatchPayload, ht]
  · simp [_interceptIncomingDispatchPayload]
  · obtain ⟨fs1, hw1, hpres1, _⟩ := wrapVersioned_obj fs "read_state"
    obtain ⟨fs2, hw2, hpres2, _⟩ := wrapVersioned_obj fs1 "user_guild_settings"
    have hg2 : lookupKey fs2 "guilds" = none := by
      rw [hpres2 "guilds" (by decide), hpres1 "guilds" (by decide), hg]
    refine ⟨.typeError "data.guilds is not iterable", ?_⟩
    simp [_interceptIncomingDispatchPayload, hw1, hw2, readField, hg2]

/-- C2 witness: the amended statement at the concrete inputs `"HELLO"` with
`null` data and a READY payload with no fields. -/
theorem ready_missing_guilds_throws_witness :
    ("HELLO" ≠ "READY") ∧
    (lookupKey ([] : List (String × Value)) "guilds" = none) ∧
    _interceptIncomingDispatchPayload true "HELLO" .null = .ok ("HELLO", .null) ∧
    ∃ e, _interceptIncomingDispatchPayload true "READY" (.obj []) = .error e :=
  ⟨by decide, rfl, (ready_missing_guilds_throws "HELLO" .null []).1 (by decide),
    (ready_missing_guilds_throws "HELLO" .null []).2.2 rfl⟩

theorem toggleCapabilityBit_testBit (caps k : Nat) (hc : caps < 2 ^ 32)
    (hk : k < 32) (j : Nat) :
    (toggleCapabilityBit caps k).testBit j =
      if j = k then !(caps.testBit j) else caps.testBit j := by
  have hand : caps &&& 2 ^ k ≠ 0 ↔ caps.testBit k = true := by
    rw [Nat.and_two_pow]
    cases h : caps.testBit k <;> simp [h]
  by_cases hbit : caps.testBit k = true
  · have : caps &&& 2 ^ k ≠ 0 := hand.mpr hbit
    simp only [toggleCapabilityBit, if_pos this]
    rw [Nat.testBit_land, Nat.testBit_xor, Nat.testBit_two_pow_sub_one]
    by_cases hj : j = k
    · subst hj
      simp [hbit, Nat.testBit_two_pow_self, hk]
    · rw [Nat.testBit_two_pow_of_ne fun h => hj h.symm]
      by_cases hj32 : j < 32
      · simp [hj, hj32]
      · have : caps.testBit j = false :=
          Nat.testBit_lt_two_pow (lt_of_lt_of_le hc
            (Nat.pow_le_pow_right (by omega) (by omega)))
        simp [hj, hj32, this]
  · have hbit' : caps.testBit k = false := by
      cases h : caps.testBit k
      · rfl
      · exact absurd h hbit
    have : ¬caps &&& 2 ^ k ≠ 0 := fun h => hbit (hand.mp h)
    simp only [toggleCapabilityBit, if_neg this]
    rw [Nat.testBit_lor]
    by_cases hj : j = k
    · subst hj
      simp [hbit', Nat.testBit_two_pow_self]
    · rw [Nat.testBit_two_pow_of_ne fun h => hj h.symm]
      simp [hj]

theorem toggleCapabilityBit_lt (caps k : Nat) (hc : caps < 2 ^ 32) (hk : k < 32) :
    toggleCapabilityBit caps k < 2 ^ 32 := by
  unfold toggleCapabilityBit
  simp only []
  split
  · exact lt_of_le_of_lt Nat.and_le_left hc
  · exact Nat.or_lt_two_pow hc
      (Nat.pow_lt_pow_right (by omega) hk)

/-- C10: the per-bit toggle control (clear-if-set / set-if-clear via the
32-bit mask) flips exactly bit `k` and applied twice returns every 32-bit
bitmask to its original value, for all `k` in `0..31`. -/
theorem capability_toggle_involution (caps k : Nat) (hc : caps < 2 ^ 32)
    (hk : k < 32) :
    toggleCapabilityBit (toggleCapabilityBit caps k) k = caps ∧
    (toggleCapabilityBit caps k).testBit k = !(caps.testBit k) ∧
    ∀ j, j ≠ k → (toggleCapabilityBit caps k).testBit j = caps.testBit j := by
  refine ⟨?_, ?_, fun j hj => ?_⟩
  · apply Nat.eq_of_testBit_eq
    intro j
    rw [toggleCapabilityBit_testBit _ k (toggleCapabilityBit_lt caps k hc hk) hk j,
      toggleCapabilityBit_testBit caps k hc hk j]
    by_cases hj : j = k <;> simp [hj]
  · rw [toggleCapabilityBit_testBit caps k hc hk k]
    simp
  · rw [toggleCapabilityBit_testBit caps k hc hk j]
    simp [hj]

/-- C10 witness: toggling bit 1 of bitmask 5 twice returns 5, the single
toggle flips bit 1 and leaves bit 0 unchanged. -/
theorem capability_toggle_involution_witness :
    (5 : Nat) < 2 ^ 32 ∧ (1 : Nat) < 32 ∧
    toggleCapabilityBit (toggleCapabilityBit 5 1) 1 = 5 ∧
    (toggleCapabilityBit 5 1).testBit 1 = !((5 : Nat).testBit 1) ∧
    (toggleCapabilityBit 5 1).testBit 0 = (5 : Nat).testBit 0 :=
  ⟨by norm_num, by norm_num,
    (capability_toggle_involution 5 1 (by norm_num) (by norm_num)).1,
    (capability_toggle_involution 5 1 (by norm_num) (by norm_num)).2.1,
    (capability_toggle_involution 5 1 (by norm_num) (by norm_num)).2.2 0 (by norm_num)⟩

theorem sizeOf_strong_induction {α : Type} [SizeOf α] (P : α → Prop)
    (ih : ∀ x : α, (∀ y : α, sizeOf y < sizeOf x → P y) → P x) : ∀ x, P x := by
  intro x
  generalize hn : sizeOf x = n
  induction n using Nat.strong_induction_on generalizing x with
  | _ n IH =>
    subst hn
    exact ih x fun y hy => IH (sizeOf y) hy y rfl

theorem sizeOf_snd_lt_calls {m : ℚ} {l : List (List Char × WirePayload)}
    {nd : List Char × WirePayload} (h : nd ∈ l) :
    sizeOf nd.2 < sizeOf (WirePayload.mk m (some l)) := by
  have h1 := List.sizeOf_lt_of_mem h
  obtain ⟨a, b⟩ := nd
  simp_all
  omega

theorem round_qdiv_mul (m : ℚ) (h : m.den = 1) :
    ((round (m / 1000 * 1000) : ℤ) : ℚ) = m := by
  have h1 : m / 1000 * 1000 = m := div_mul_cancel₀ m (by norm_num)
  rw [h1]
  have h2 : ((m.num : ℚ)) = m := (Rat.den_eq_one_iff m).mp h
  rw [← h2, round_intCast]

theorem toData_ofWire (p : WirePayload) :
    p.microsIntegral = true →
    ∀ name, CallTrace.toData (CallTrace.ofWire name p) = (name, p.canon) := by
  induction p using sizeOf_strong_induction with
  | _ p IH =>
    intro hint name
    obtain ⟨m, c⟩ := p
    cases c with
    | none =>
      simp only [WirePayload.microsIntegral, decide_eq_true_eq] at hint
      simp only [CallTrace.ofWire, CallTrace.toData, WirePayload.canon,
        round_qdiv_mul m hint, List.attach_nil, List.map_nil]
    | some l =>
      simp only [WirePayload.microsIntegral, Bool.and_eq_true, decide_eq_true_eq,
        List.all_eq_true, List.mem_attach, true_implies, Subtype.forall] at hint
      obtain ⟨hden, hall⟩ := hint
      simp only [CallTrace.ofWire, CallTrace.toData, WirePayload.canon,
        round_qdiv_mul m hden, Prod.mk.injEq, WirePayload.mk.injEq, true_and,
        Option.some.injEq]
      rw [List.attach_map_val
        (l := l.attach.map fun nd => CallTrace.ofWire nd.1.1 nd.1.2)
        (f := CallTrace.toData)]
      rw [List.map_map]
      apply List.map_congr_left
      intro nd _
      exact IH nd.1.2 (sizeOf_snd_lt_calls nd.2) (hall nd.1 nd.2) nd.1.1

theorem canon_of_callsPresent (p : WirePayload) :
    p.callsPresent = true → p.canon = p := by
  induction p using sizeOf_strong_induction with
  | _ p IH =>
    intro hcp
    obtain ⟨m, c⟩ := p
    cases c with
    | none => simp [WirePayload.callsPresent] at hcp
    | some l =>
      simp only [WirePayload.callsPresent, List.all_eq_true, List.mem_attach,
        true_implies, Subtype.forall] at hcp
      simp only [WirePayload.canon, WirePayload.mk.injEq, true_and,
        Option.some.injEq]
      have : (l.attach.map fun nd => (nd.1.1, nd.1.2.canon)) =
          l.attach.map fun nd => nd.1 := by
        apply List.map_congr_left
        intro nd _
        have h1 := IH nd.1.2 (sizeOf_snd_lt_calls nd.2) (hcp nd.1 nd.2)
        rw [h1]
      rw [this, List.attach_map_val (l := l) (f := fun x => x)]
      simp

/-- C3 amended: for a tuple list whose `micros` values are integers,
`toWire (fromWire t)` equals `t` with every absent `calls` key canonicalized
to an explicit empty list; the round trip reproduces `t` exactly when every
payload carries an explicit `calls` key. -/
theorem calltrace_roundtrip (t : List (List Char × WirePayload))
    (hint : (t.all fun nd => nd.2.microsIntegral) = true) :
    toWire (fromWire t) = (t.map fun nd => (nd.1, nd.2.canon)) ∧
    ((t.all fun nd => nd.2.callsPresent) = true → toWire (fromWire t) = t) := by
  have h1 : toWire (fromWire t) = t.map fun nd => (nd.1, nd.2.canon) := by
    simp only [toWire, fromWire, List.map_map]
    apply List.map_congr_left
    intro nd hnd
    simp only [List.all_eq_true] at hint
    exact toData_ofWire nd.2 (hint nd hnd) nd.1
  refine ⟨h1, fun hcp => ?_⟩
  rw [h1]
  simp only [List.all_eq_true] at hcp
  have h2 : (t.map fun nd => (nd.1, nd.2.canon)) = t.map id := by
    apply List.map_congr_left
    intro nd hnd
    rw [canon_of_callsPresent nd.2 (hcp nd hnd)]
    rfl
  rw [h2, List.map_id]

/-- C3 counterexample: a tuple whose payload omits the optional `calls`
key does not round-trip exactly, because `toData` always emits a `calls`
list. -/
theorem calltrace_roundtrip_counterexample :
    toWire (fromWire [(['a'], WirePayload.mk 5 none)]) =
      [(['a'], WirePayload.mk 5 (some []))] ∧
    toWire (fromWire [(['a'], WirePayload.mk 5 none)]) ≠
      [(['a'], WirePayload.mk 5 none)] := by
  have h1 : toWire (fromWire [(['a'], WirePayload.mk 5 none)]) =
      [(['a'], WirePayload.mk 5 (some []))] := by
    simp [toWire, fromWire, CallTrace.ofWire, CallTrace.toData]
  exact ⟨h1, by rw [h1]; simp⟩

/-- C3 witness: the amended round trip at the concrete one-node tuple list
with integral micros and an explicit empty `calls` list. -/
theorem calltrace_roundtrip_witness :
    (([(['a'], WirePayload.mk 3 (some []))].all fun nd =>
      nd.2.microsIntegral) = true) ∧
    (([(['a'], WirePayload.mk 3 (some []))].all fun nd =>
      nd.2.callsPresent) = true) ∧
    toWire (fromWire [(['a'], WirePayload.mk 3 (some []))]) =
      [(['a'], WirePayload.mk 3 (some []))] := by
  have hint : (([(['a'], WirePayload.mk 3 (some []))].all fun nd =>
      nd.2.microsIntegral) = true) := by
    simp [WirePayload.microsIntegral]
  have hcp : (([(['a'], WirePayload.mk 3 (some []))].all fun nd =>
      nd.2.callsPresent) = true) := by
    simp [WirePayload.callsPresent]
  exact ⟨hint, hcp, (calltrace_roundtrip _ hint).2 hcp⟩

theorem modifyHead_append {β : Type} (f : β → β) (l1 l2 : List β) (h : l1 ≠ []) :
    (l1 ++ l2).modifyHead f = l1.modifyHead f ++ l2 := by
  cases l1 with
  | nil => exact absurd rfl h
  | cons a t => rfl

theorem splitOnP_append_sep {α : Type} (p : α → Bool) (sep : α)
    (hsep : p sep = true) (a b : List α) :
    (a ++ sep :: b).splitOnP p = a.splitOnP p ++ b.splitOnP p := by
  induction a with
  | nil => simp [List.splitOnP_cons, hsep]
  | cons x xs ih =>
    by_cases hx : p x = true
    · simp [List.splitOnP_cons, hx, ih]
    · simp only [List.cons_append, List.splitOnP_cons, hx, Bool.false_eq_true,
        ite_false, if_neg]
      rw [ih, modifyHead_append _ _ _ (List.splitOnP_ne_nil p xs)]

theorem splitOnP_chunks_false {α : Type} (p : α → Bool) :
    ∀ xs : List α, ∀ l ∈ xs.splitOnP p, ∀ a ∈ l, p a = false := by
  intro xs
  induction xs with
  | nil =>
    intro l hl a ha
    simp only [List.splitOnP_nil, List.mem_singleton] at hl
    subst hl
    simp at ha
  | cons x t ih =>
    intro l hl a ha
    by_cases hx : p x = true
    · rw [List.splitOnP_cons, if_pos hx] at hl
      rcases List.mem_cons.mp hl with h | h
      · subst h
        simp at ha
      · exact ih l h a ha
    · rw [List.splitOnP_cons, if_neg hx] at hl
      cases hsp : t.splitOnP p with
      | nil => exact absurd hsp (List.splitOnP_ne_nil p t)
      | cons hd tl =>
        rw [hsp, List.modifyHead_cons] at hl
        simp only [Bool.not_eq_true] at hx
        rcases List.mem_cons.mp hl with h | h
        · subst h
          rcases List.mem_cons.mp ha with h2 | h2
          · subst h2
            exact hx
          · exact ih hd (by rw [hsp]; exact List.mem_cons_self hd tl) a h2
        · exact ih l (by rw [hsp]; exact List.mem_cons_of_mem hd h) a ha

theorem intercalate_single {α : Type} (sep : List α) (a : List α) :
    List.intercalate sep [a] = a := by
  simp [List.intercalate]

theorem intercalate_two {α : Type} (sep : List α) (a b : List α)
    (t : List (List α)) :
    List.intercalate sep (a :: b :: t) = a ++ sep ++ List.intercalate sep (b :: t) := by
  simp [List.intercalate, List.intersperse_cons_cons]

theorem splitOn_append_sep {α : Type} [DecidableEq α] (sep : α) (a b : List α) :
    (a ++ sep :: b).splitOn sep = a.splitOn sep ++ b.splitOn sep := by
  simp only [List.splitOn]
  exact splitOnP_append_sep _ sep (by simp) a b

theorem splitOn_ne_nil {α : Type} [DecidableEq α] (sep : α) (xs : List α) :
    xs.splitOn sep ≠ [] := List.splitOnP_ne_nil _ xs

theorem splitOn_chunks_not_mem {α : Type} [DecidableEq α] (sep : α)
    (xs : List α) : ∀ l ∈ xs.splitOn sep, sep ∉ l := by
  intro l hl hmem
  have h := splitOnP_chunks_false (· == sep) xs l hl sep hmem
  simp at h

theorem splitOn_of_not_mem {α : Type} [DecidableEq α] {sep : α} {xs : List α}
    (h : sep ∉ xs) : xs.splitOn sep = [xs] := by
  apply List.splitOnP_eq_single
  intro x hx
  simp only [beq_iff_eq]
  intro he
  exact h (he ▸ hx)

theorem splitOn_intercalate_flatten {α : Type} [DecidableEq α] (sep : α) :
    ∀ bs : List (List α), bs ≠ [] →
      (List.intercalate [sep] bs).splitOn sep =
        (bs.map fun b => b.splitOn sep).flatten := by
  intro bs
  induction bs with
  | nil => intro h; exact absurd rfl h
  | cons b t ih =>
    intro _
    cases t with
    | nil => simp [intercalate_single]
    | cons b2 t2 =>
      rw [intercalate_two, List.append_assoc, List.singleton_append,
        splitOn_append_sep, ih (by simp)]
      simp

theorem digitCh_ne_newline (d : Nat) : digitCh d ≠ '\n' := by
  unfold digitCh
  split <;> decide

theorem natDigits_not_newline : ∀ n : Nat, '\n' ∉ natDigits n := by
  intro n
  induction n using Nat.strong_induction_on with
  | _ n IH =>
    unfold natDigits
    split
    · intro h
      simp only [List.mem_singleton] at h
      exact digitCh_ne_newline n h.symm
    · intro h
      rcases List.mem_append.mp h with h | h
      · exact IH (n / 10) (Nat.div_lt_self (by omega) (by omega)) h
      · simp only [List.mem_singleton] at h
        exact digitCh_ne_newline (n % 10) h.symm

theorem showQ_not_newline (q : ℚ) : '\n' ∉ showQ q := by
  unfold showQ
  intro h
  rcases List.mem_append.mp h with h | h
  · rcases List.mem_append.mp h with h | h
    · split at h
      · simp only [List.mem_singleton] at h
        exact absurd h (by decide)
      · simp at h
    · exact natDigits_not_newline _ h
  · split at h
    · simp at h
    · rcases List.mem_cons.mp h with h | h
      · exact absurd h (by decide)
      · exact natDigits_not_newline _ h

theorem splitOn_indentBlock (s : List Char) :
    (indentBlock s).splitOn '\n' = (s.splitOn '\n').map fun l => indentPre ++ l := by
  unfold indentBlock
  apply List.splitOn_intercalate
  · intro l hl
    obtain ⟨c, hc, rfl⟩ := List.mem_map.mp hl
    intro hmem
    rcases List.mem_append.mp hmem with h | h
    · exact absurd h (by decide)
    · exact splitOn_chunks_not_mem '\n' s c hc h
  · simp only [ne_eq, List.map_eq_nil_iff]
    exact splitOn_ne_nil '\n' s

theorem sizeOf_lt_calltrace {nm : List Char} {du : ℚ} {cs : List CallTrace}
    {c : CallTrace} (h : c ∈ cs) : sizeOf c < sizeOf (CallTrace.mk nm du cs) := by
  have h1 := List.sizeOf_lt_of_mem h
  simp only [CallTrace.mk.sizeOf_spec]
  omega

theorem buildTree_flatten : ∀ l : List CallTrace,
    buildTree l = (l.map fun c => buildTree [c]).flatten := by
  intro l
  induction l with
  | nil => simp [buildTree]
  | cons c rest ih =>
    obtain ⟨nm, du, cs⟩ := c
    simp only [buildTree, List.map_cons, List.flatten_cons, ih, List.append_nil]

theorem splitOn_buildTree_singleton (c : CallTrace) :
    namesOk c = true → (buildTree [c]).splitOn '\n' = linesOf c := by
  induction c using sizeOf_strong_induction with
  | _ c IH =>
    intro hok
    obtain ⟨nm, du, cs⟩ := c
    simp only [namesOk, Bool.and_eq_true, decide_eq_true_eq, List.all_eq_true,
      List.mem_attach, true_implies, Subtype.forall] at hok
    obtain ⟨hnm, hallok⟩ := hok
    have hheader : '\n' ∉ nm ++ [':', ' '] ++ showQ du := by
      intro h
      rcases List.mem_append.mp h with h | h
      · rcases List.mem_append.mp h with h | h
        · exact hnm h
        · exact absurd h (by decide)
      · exact showQ_not_newline du h
    cases cs with
    | nil =>
      simp only [buildTree, List.isEmpty_nil, ite_true, List.append_nil]
      have h1 : nm ++ [':', ' '] ++ showQ du ++ ['\n'] =
          (nm ++ [':', ' '] ++ showQ du) ++ '\n' :: [] := by simp
      rw [h1, splitOn_append_sep, splitOn_of_not_mem hheader]
      simp [linesOf, List.splitOn]
    | cons c1 crest =>
      simp only [buildTree, List.isEmpty_cons, ite_false, List.append_nil,
        Bool.false_eq_true]
      have hassoc : nm ++ [':', ' '] ++ showQ du ++ ['\n'] ++
          List.intercalate ['\n'] ((c1 :: crest).attach.map fun s =>
            indentBlock (buildTree [s.1])) =
          (nm ++ [':', ' '] ++ showQ du) ++ '\n' ::
          List.intercalate ['\n'] ((c1 :: crest).attach.map fun s =>
            indentBlock (buildTree [s.1])) := by simp
      rw [hassoc, splitOn_append_sep, splitOn_of_not_mem hheader,
        splitOn_intercalate_flatten '\n' _ (by simp), List.map_map]
      have hmaps : ((c1 :: crest).attach.map fun s =>
          ((fun b => b.splitOn '\n') ∘ fun s => indentBlock (buildTree [s.1])) s) =
          (c1 :: crest).attach.map fun s => (linesOf s.1).map fun l =>
            indentPre ++ l := by
        apply List.map_congr_left
        intro s _
        simp only [Function.comp_apply]
        rw [splitOn_indentBlock, IH s.1 (sizeOf_lt_calltrace s.2) (hallok s.1 s.2)]
      rw [hmaps]
      simp [linesOf]

theorem indentPre_dupPre (d : Nat) : indentPre ++ dupPre d = dupPre (d + 1) := by
  simp [dupPre, List.replicate_succ]

theorem map_pre_preorderLines (c : CallTrace) :
    ∀ d : Nat, (preorderLines d c).map (fun l => indentPre ++ l) =
      preorderLines (d + 1) c := by
  induction c using sizeOf_strong_induction with
  | _ c IH =>
    intro d
    obtain ⟨nm, du, cs⟩ := c
    simp only [preorderLines, List.map_cons, List.map_flatten, List.map_map]
    have hhead : indentPre ++ (dupPre d ++ nm ++ [':', ' '] ++ showQ du) =
        dupPre (d + 1) ++ nm ++ [':', ' '] ++ showQ du := by
      rw [← indentPre_dupPre]
      simp [List.append_assoc]
    have htail : (List.map ((List.map fun l => indentPre ++ l) ∘ fun s =>
        preorderLines (d + 1) s.1) cs.attach).flatten =
        (List.map (fun s => preorderLines (d + 1 + 1) s.1) cs.attach).flatten := by
      congr 1
      apply List.map_congr_left
      intro s _
      simp only [Function.comp_apply]
      exact IH s.1 (sizeOf_lt_calltrace s.2) (d + 1)
    rw [hhead, htail]

theorem colon_not_mem_indentPre : ':' ∉ indentPre := by decide

theorem linesOf_spec (c : CallTrace) :
    (linesOf c).filter (fun l => decide (':' ∈ l)) = preorderLines 0 c ∧
    ∀ l ∈ linesOf c, (':' ∈ l) ∨ ∃ j, l = dupPre j := by
  induction c using sizeOf_strong_induction with
  | _ c IH =>
    obtain ⟨nm, du, cs⟩ := c
    have hcolhead : ':' ∈ nm ++ [':', ' '] ++ showQ du := by simp
    cases cs with
    | nil =>
      constructor
      · simp only [linesOf, List.isEmpty_nil, ite_true]
        rw [List.filter_cons_of_pos (by simp [hcolhead])]
        simp [preorderLines, dupPre]
      · intro l hl
        simp only [linesOf, List.isEmpty_nil, ite_true, List.mem_cons,
          List.mem_singleton, List.not_mem_nil, or_false] at hl
        rcases hl with rfl | rfl
        · exact Or.inl hcolhead
        · exact Or.inr ⟨0, by simp [dupPre]⟩
    | cons c1 crest =>
      constructor
      · simp only [linesOf, List.isEmpty_cons, ite_false, Bool.false_eq_true]
        rw [List.filter_cons_of_pos (by simp [hcolhead])]
        rw [List.filter_flatten, List.map_map]
        have hmaps : (List.map ((List.filter fun l => decide (':' ∈ l)) ∘ fun s =>
            (linesOf s.1).map fun l => indentPre ++ l) (c1 :: crest).attach) =
            List.map (fun s => preorderLines 1 s.1) (c1 :: crest).attach := by
          apply List.map_congr_left
          intro s _
          simp only [Function.comp_apply]
          rw [List.filter_map]
          have hpred : ((fun l => decide (':' ∈ l)) ∘ fun l => indentPre ++ l) =
              fun l => decide (':' ∈ l) := by
            funext l
            simp only [Function.comp_apply, List.mem_append, decide_eq_decide]
            have := colon_not_mem_indentPre
            tauto
          rw [hpred, (IH s.1 (sizeOf_lt_calltrace s.2)).1,
            map_pre_preorderLines s.1 0]
        rw [hmaps]
        simp [preorderLines, dupPre]
      · intro l hl
        simp only [linesOf, List.isEmpty_cons, ite_false, Bool.false_eq_true,
          List.mem_cons] at hl
        rcases hl with rfl | hl
        · exact Or.inl hcolhead
        · rw [List.mem_flatten] at hl
          obtain ⟨blk, hblk, hlblk⟩ := hl
          rw [List.mem_map] at hblk
          obtain ⟨s, _, rfl⟩ := hblk
          rw [List.mem_map] at hlblk
          obtain ⟨l2, hl2, rfl⟩ := hlblk
          rcases (IH s.1 (sizeOf_lt_calltrace s.2)).2 l2 hl2 with h | ⟨j, rfl⟩
          · exact Or.inl (List.mem_append.mpr (Or.inr h))
          · exact Or.inr ⟨j + 1, indentPre_dupPre j⟩

/-- C9 amended: `buildTree` of a list is the concatenation of the
singleton renderings; in a singleton rendering the lines containing a colon
are exactly one per node in preorder, each prefixed with `"|  "` once per
ancestor, and every remaining line consists solely of repetitions of `"|  "`
(such separator lines do appear, contrary to the original claim). -/
theorem buildTree_line_structure (c : CallTrace) (h : namesOk c = true) :
    ((buildTree [c]).splitOn '\n').filter (fun l => decide (':' ∈ l)) =
      preorderLines 0 c ∧
    (∀ l ∈ (buildTree [c]).splitOn '\n', (':' ∈ l) ∨ ∃ j, l = dupPre j) ∧
    ∀ cs : List CallTrace, buildTree cs = (cs.map fun c2 => buildTree [c2]).flatten := by
  rw [splitOn_buildTree_singleton c h]
  exact ⟨(linesOf_spec c).1, (linesOf_spec c).2, buildTree_flatten⟩

/-- C9 witness: the line characterization at the concrete two-node tree. -/
theorem buildTree_line_structure_witness :
    namesOk (CallTrace.mk ['r'] 2 [CallTrace.mk ['a'] 1 []]) = true ∧
    ((buildTree [CallTrace.mk ['r'] 2 [CallTrace.mk ['a'] 1 []]]).splitOn
      '\n').filter (fun l => decide (':' ∈ l)) =
      preorderLines 0 (CallTrace.mk ['r'] 2 [CallTrace.mk ['a'] 1 []]) :=
  ⟨by simp [namesOk], (buildTree_line_structure _ (by simp [namesOk])).1⟩

/-- C9 counterexample: rendering a root with one child produces, besides
the two node lines, the extra line `"|  "` (the indented trailing newline of
the child rendering), refuting the claim that no other lines appear. -/
theorem buildTree_extra_line_counterexample :
    buildTree [CallTrace.mk ['r'] 2 [CallTrace.mk ['a'] 1 []]] =
      ['r', ':', ' ', '2', '\n', '|', ' ', ' ', 'a', ':', ' ', '1', '\n',
        '|', ' ', ' '] ∧
    (buildTree [CallTrace.mk ['r'] 2 [CallTrace.mk ['a'] 1 []]]).splitOn '\n' =
      [['r', ':', ' ', '2'], ['|', ' ', ' ', 'a', ':', ' ', '1'], ['|', ' ', ' ']] ∧
    ['|', ' ', ' '] ∈ (buildTree [CallTrace.mk ['r'] 2
      [CallTrace.mk ['a'] 1 []]]).splitOn '\n' := by
  have h1 : buildTree [CallTrace.mk ['r'] 2 [CallTrace.mk ['a'] 1 []]] =
      ['r', ':', ' ', '2', '\n', '|', ' ', ' ', 'a', ':', ' ', '1', '\n',
        '|', ' ', ' '] := by
    simp [buildTree, indentBlock, indentPre, showQ, natDigits, digitCh,
      List.splitOn, List.intercalate]
  refine ⟨h1, ?_, ?_⟩ <;> rw [h1] <;> decide

theorem sizeOf_lt_arr {a : Nat} {xs : List LValue} {v : LValue} (h : v ∈ xs) :
    sizeOf v < sizeOf (LValue.arr a xs) := by
  have h1 := List.sizeOf_lt_of_mem h
  simp only [LValue.arr.sizeOf_spec]
  omega

theorem sizeOf_lt_obj {a : Nat} {p : Option Nat} {fs : List (String × LValue)}
    {kv : String × LValue} (h : kv ∈ fs) :
    sizeOf kv.2 < sizeOf (LValue.obj a p fs) := by
  have h1 := List.sizeOf_lt_of_mem h
  obtain ⟨k, v⟩ := kv
  simp_all
  omega

theorem copyList_spec (l : List LValue)
    (hel : ∀ v ∈ l, ∀ m : Nat, m ≤ (copy v m).2 ∧
      (∀ b ∈ addrs (copy v m).1, m ≤ b) ∧ erase (copy v m).1 = erase v) :
    ∀ m : Nat, m ≤ (copyList l m).2 ∧
      (∀ b ∈ addrsList (copyList l m).1, m ≤ b) ∧
      eraseList (copyList l m).1 = eraseList l := by
  induction l with
  | nil =>
    intro m
    exact ⟨le_refl m, by simp [copyList, addrsList], rfl⟩
  | cons v rest ih =>
    intro m
    obtain ⟨h1, h2, h3⟩ := hel v (List.mem_cons_self v rest) m
    obtain ⟨g1, g2, g3⟩ :=
      ih (fun w hw => hel w (List.mem_cons_of_mem v hw)) (copy v m).2
    refine ⟨le_trans h1 g1, ?_, ?_⟩
    · intro b hb
      simp only [copyList, addrsList, List.mem_append] at hb
      rcases hb with hb | hb
      · exact h2 b hb
      · exact le_trans h1 (g2 b hb)
    · simp only [copyList, eraseList]
      rw [h3, g3]

theorem copyFields_spec (l : List (String × LValue))
    (hel : ∀ kv ∈ l, ∀ m : Nat, m ≤ (copy kv.2 m).2 ∧
      (∀ b ∈ addrs (copy kv.2 m).1, m ≤ b) ∧ erase (copy kv.2 m).1 = erase kv.2) :
    ∀ m : Nat, m ≤ (copyFields l m).2 ∧
      (∀ b ∈ addrsFields (copyFields l m).1, m ≤ b) ∧
      eraseFields (copyFields l m).1 = eraseFields l := by
  induction l with
  | nil =>
    intro m
    exact ⟨le_refl m, by simp [copyFields, addrsFields], rfl⟩
  | cons kv rest ih =>
    intro m
    obtain ⟨k, v⟩ := kv
    obtain ⟨h1, h2, h3⟩ := hel (k, v) (List.mem_cons_self _ rest) m
    obtain ⟨g1, g2, g3⟩ :=
      ih (fun w hw => hel w (List.mem_cons_of_mem _ hw)) (copy v m).2
    refine ⟨le_trans h1 g1, ?_, ?_⟩
    · intro b hb
      simp only [copyFields, addrsFields, List.mem_append] at hb
      rcases hb with hb | hb
      · exact h2 b hb
      · exact le_trans h1 (g2 b hb)
    · simp only [copyFields, eraseFields]
      rw [h3, g3]

theorem copy_spec (v : LValue) : ∀ n : Nat, n ≤ (copy v n).2 ∧
    (∀ b ∈ addrs (copy v n).1, n ≤ b) ∧ erase (copy v n).1 = erase v := by
  induction v using sizeOf_strong_induction with
  | _ v IH =>
    intro n
    cases v with
    | null => exact ⟨le_refl n, by simp [copy, addrs], rfl⟩
    | undefined => exact ⟨le_refl n, by simp [copy, addrs], rfl⟩
    | bool b => exact ⟨le_refl n, by simp [copy, addrs], rfl⟩
    | num q => exact ⟨le_refl n, by simp [copy, addrs], rfl⟩
    | str s => exact ⟨le_refl n, by simp [copy, addrs], rfl⟩
    | bigI z => exact ⟨le_refl n, by simp [copy, addrs], rfl⟩
    | fn a fid =>
      refine ⟨by simp [copy], ?_, by simp [copy, erase]⟩
      intro b hb
      simp [copy, addrs] at hb
      omega
    | fnWrap a fid =>
      refine ⟨by simp [copy], ?_, by simp [copy, erase]⟩
      intro b hb
      simp [copy, addrs] at hb
      omega
    | arr a xs =>
      obtain ⟨g1, g2, g3⟩ := copyList_spec xs
        (fun w hw m => IH w (sizeOf_lt_arr hw) m) (n + 1)
      refine ⟨by simp only [copy]; omega, ?_, ?_⟩
      · intro b hb
        simp only [copy, addrs, List.mem_cons] at hb
        rcases hb with rfl | hb
        · exact le_refl b
        · exact le_trans (Nat.le_succ n) (g2 b hb)
      · simp only [copy, erase]
        rw [g3]
    | obj a p fs =>
      obtain ⟨g1, g2, g3⟩ := copyFields_spec fs
        (fun kv hkv m => IH kv.2 (sizeOf_lt_obj hkv) m) (n + 1)
      refine ⟨by simp only [copy]; omega, ?_, ?_⟩
      · intro b hb
        simp only [copy, addrs, List.mem_cons] at hb
        rcases hb with rfl | hb
        · exact le_refl b
        · exact le_trans (Nat.le_succ n) (g2 b hb)
      · simp only [copy, erase]
        rw [g3]

/-- C5: for a value whose container/function addresses are below the
allocation counter, `copy` returns a value sharing no address with the input
(every container is fresh), with identical address-erased structure, and
whose copied functions delegate every call to the original behaviour. -/
theorem copy_deep_copy (v : LValue) (n : Nat) (hv : ∀ b ∈ addrs v, b < n) :
    (∀ b ∈ addrs (copy v n).1, b ∉ addrs v) ∧
    erase (copy v n).1 = erase v ∧
    ∀ env args, applyFn env (copy v n).1 args = applyFn env v args := by
  obtain ⟨h1, h2, h3⟩ := copy_spec v n
  refine ⟨fun b hb hbv => absurd (hv b hbv) (not_lt.mpr (h2 b hb)), h3,
    fun env args => ?_⟩
  cases v <;> simp [copy, applyFn]

/-- C5 witness: the copy specification at a concrete two-field record
containing a number and a function. -/
theorem copy_deep_copy_witness :
    (∀ b ∈ addrs (.obj 0 none [("a", .num 1), ("f", .fn 1 7)]), b < 2) ∧
    erase (copy (.obj 0 none [("a", .num 1), ("f", .fn 1 7)]) 2).1 =
      erase (.obj 0 none [("a", .num 1), ("f", .fn 1 7)]) :=
  ⟨by intro b hb; simp [addrs, addrsFields] at hb; omega,
   (copy_deep_copy _ 2
     (by intro b hb; simp [addrs, addrsFields] at hb; omega)).2.1⟩

theorem mem_setKey {α : Type} (fs : List (String × α)) (k : String) (v : α) :
    ∀ kv ∈ setKey fs k v, kv ∈ fs ∨ kv = (k, v) := by
  induction fs with
  | nil =>
    intro kv hkv
    simp [setKey] at hkv
    exact Or.inr hkv
  | cons kv0 rest ih =>
    intro kv hkv
    obtain ⟨k0, v0⟩ := kv0
    by_cases h0 : k0 = k
    · rw [setKey, if_pos h0] at hkv
      rcases List.mem_cons.mp hkv with rfl | h
      · exact Or.inr rfl
      · exact Or.inl (List.mem_cons_of_mem _ h)
    · rw [setKey, if_neg h0] at hkv
      rcases List.mem_cons.mp hkv with rfl | h
      · exact Or.inl (List.mem_cons_self _ _)
      · rcases ih kv h with h | h
        · exact Or.inl (List.mem_cons_of_mem _ h)
        · exact Or.inr h

theorem addrsFields_mem {l : List (String × LValue)} {b : Nat}
    (h : b ∈ addrsFields l) : ∃ kv ∈ l, b ∈ addrs kv.2 := by
  induction l with
  | nil => simp [addrsFields] at h
  | cons kv rest ih =>
    obtain ⟨k, v⟩ := kv
    simp only [addrsFields, List.mem_append] at h
    rcases h with h | h
    · exact ⟨(k, v), List.mem_cons_self _ _, h⟩
    · obtain ⟨kv2, hkv2, hb⟩ := ih h
      exact ⟨kv2, List.mem_cons_of_mem _ hkv2, hb⟩

theorem mem_addrsFields_of_mem {l : List (String × LValue)}
    {kv : String × LValue} {b : Nat} (hkv : kv ∈ l) (hb : b ∈ addrs kv.2) :
    b ∈ addrsFields l := by
  induction l with
  | nil => simp at hkv
  | cons kv0 rest ih =>
    obtain ⟨k0, v0⟩ := kv0
    rcases List.mem_cons.mp hkv with rfl | h
    · simp only [addrsFields, List.mem_append]
      exact Or.inl hb
    · simp only [addrsFields, List.mem_append]
      exact Or.inr (ih h)

theorem interceptOutgoing_caps_unchanged (caps : LValue) (hne : caps ≠ .undefined)
    (n : Nat) (op : ℚ) (d : LValue) (c : Option Bool) :
    ∀ out, _interceptOutgoingPayload caps n op d c = .ok out →
      out.1.1 = caps := by
  intro out hok
  unfold _interceptOutgoingPayload at hok
  by_cases hop : op = 2
  · rw [if_pos hop] at hok
    have hcaps : (match caps with
        | .undefined => readFieldL d "capabilities"
        | _ => .ok caps) = .ok caps := by
      cases caps with
      | undefined => exact absurd rfl hne
      | null => rfl
      | bool b => rfl
      | num q => rfl
      | str s => rfl
      | bigI z => rfl
      | fn a fid => rfl
      | fnWrap a fid => rfl
      | arr a xs => rfl
      | obj a p fs => rfl
    rw [hcaps] at hok
    dsimp only at hok
    cases hw : writeFieldL (copy d n).1 "capabilities" caps with
    | error e => rw [hw] at hok; simp at hok
    | ok d2 =>
      rw [hw] at hok
      simp only [Except.ok.injEq] at hok
      rw [← hok]
  · rw [if_neg hop] at hok
    simp only [Except.ok.injEq] at hok
    rw [← hok]

/-- C6: starting from the unset bitmask, an identify carrying
capabilities 5 stores 5, and a following identify carrying capabilities 9
leaves the stored bitmask at 5; in general every successful call made while
the bitmask is set returns it unchanged (capture is a no-op). -/
theorem capability_capture_first_write_wins
    (a1 a2 n1 n2 : Nat) (p1 p2 : Option Nat)
    (fs1 fs2 : List (String × LValue)) (c1 c2 : Option Bool)
    (h1 : lookupKey fs1 "capabilities" = some (.num 5))
    (h2 : lookupKey fs2 "capabilities" = some (.num 9)) :
    ∃ (m1 m2 : Nat) (d1 d2 : LValue) (b1 b2 : Bool),
      _interceptOutgoingPayload .undefined n1 2 (.obj a1 p1 fs1) c1 =
        .ok ((.num 5, m1), (2, d1, b1)) ∧
      _interceptOutgoingPayload (.num 5) n2 2 (.obj a2 p2 fs2) c2 =
        .ok ((.num 5, m2), (2, d2, b2)) ∧
      ∀ (caps : LValue) (n : Nat) (op : ℚ) (d : LValue) (c : Option Bool) out,
        caps ≠ .undefined → _interceptOutgoingPayload caps n op d c = .ok out →
          out.1.1 = caps := by
  refine ⟨(copyFields fs1 (n1 + 1)).2, (copyFields fs2 (n2 + 1)).2,
    .obj n1 p1 (setKey (copyFields fs1 (n1 + 1)).1 "capabilities" (.num 5)),
    .obj n2 p2 (setKey (copyFields fs2 (n2 + 1)).1 "capabilities" (.num 5)),
    c1.getD true, c2.getD true, ?_, ?_,
    fun caps n op d c out hne hok =>
      interceptOutgoing_caps_unchanged caps hne n op d c out hok⟩
  · simp [_interceptOutgoingPayload, readFieldL, h1, copy, writeFieldL]
  · simp [_interceptOutgoingPayload, copy, writeFieldL]

/-- C6 witness: the first-write-wins property at concrete identify
payloads carrying capabilities 5 and 9. -/
theorem capability_capture_first_write_wins_witness :
    lookupKey [("capabilities", LValue.num 5)] "capabilities" =
      some (LValue.num 5) ∧
    lookupKey [("capabilities", LValue.num 9)] "capabilities" =
      some (LValue.num 9) ∧
    ∃ (m1 m2 : Nat) (d1 d2 : LValue) (b1 b2 : Bool),
      _interceptOutgoingPayload .undefined 0 2
          (.obj 0 none [("capabilities", .num 5)]) none =
        .ok ((.num 5, m1), (2, d1, b1)) ∧
      _interceptOutgoingPayload (.num 5) 0 2
          (.obj 0 none [("capabilities", .num 9)]) none =
        .ok ((.num 5, m2), (2, d2, b2)) ∧
      ∀ (caps : LValue) (n : Nat) (op : ℚ) (d : LValue) (c : Option Bool) out,
        caps ≠ .undefined → _interceptOutgoingPayload caps n op d c = .ok out →
          out.1.1 = caps :=
  ⟨rfl, rfl, capability_capture_first_write_wins 0 0 0 0 none none _ _ none none
    rfl rfl⟩

/-- C7: with the stored bitmask at 0b101 (5), every outbound identify
whose record data carries capabilities 999 returns data whose
`capabilities` field reads 5: the negotiator's bitmask overrides the
payload's own value. -/
theorem setRaw_overrides_identify (a n : Nat) (p : Option Nat)
    (fs : List (String × LValue)) (c : Option Bool)
    (h999 : lookupKey fs "capabilities" = some (.num 999)) :
    ∃ (m : Nat) (b : Bool) (d2 : LValue),
      _interceptOutgoingPayload (.num 5) n 2 (.obj a p fs) c =
        .ok ((.num 5, m), (2, d2, b)) ∧
      readFieldL d2 "capabilities" = .ok (.num 5) := by
  refine ⟨(copyFields fs (n + 1)).2, c.getD true,
    .obj n p (setKey (copyFields fs (n + 1)).1 "capabilities" (.num 5)), ?_, ?_⟩
  · simp [_interceptOutgoingPayload, copy, writeFieldL]
  · simp [readFieldL, lookupKey_setKey_self]

/-- C7 witness: the override at the concrete payload
`{capabilities: 999}`. -/
theorem setRaw_overrides_identify_witness :
    lookupKey [("capabilities", LValue.num 999)] "capabilities" =
      some (LValue.num 999) ∧
    ∃ (m : Nat) (b : Bool) (d2 : LValue),
      _interceptOutgoingPayload (.num 5) 0 2
          (.obj 0 none [("capabilities", .num 999)]) none =
        .ok ((.num 5, m), (2, d2, b)) ∧
      readFieldL d2 "capabilities" = .ok (.num 5) :=
  ⟨rfl, setRaw_overrides_identify 0 0 none _ none rfl⟩

/-- C8: on the identify path the capabilities overwrite is applied to a
deep copy only - the returned data shares no container address with the
caller's record (whose `capabilities` field and the stored bitmask are
primitives, as typed in the source) - an omitted `checkSessionEstablished`
flag comes back as `true`, and every other opcode passes `data` through
untouched. -/
theorem outgoing_no_mutation (caps : LValue) (n a : Nat) (p : Option Nat)
    (fs : List (String × LValue)) (check : Option Bool)
    (hcaps : addrs caps = [])
    (hfield : ∀ v, lookupKey fs "capabilities" = some v → addrs v = [])
    (hfresh : ∀ b ∈ addrs (LValue.obj a p fs), b < n) :
    (∃ st d2 flag, _interceptOutgoingPayload caps n 2 (.obj a p fs) check =
        .ok (st, (2, d2, flag)) ∧
      (∀ b ∈ addrs d2, b ∉ addrs (LValue.obj a p fs)) ∧
      (check = none → flag = true)) ∧
    ∀ (op : ℚ) (d : LValue) (c : Option Bool), op ≠ 2 →
      _interceptOutgoingPayload caps n op d c =
        .ok ((caps, n), (op, d, c.getD true)) := by
  constructor
  · have hcaps2 : ∃ caps2, (match caps with
        | .undefined => readFieldL (LValue.obj a p fs) "capabilities"
        | _ => .ok caps) = .ok caps2 ∧ addrs caps2 = [] := by
      cases caps with
      | undefined =>
        cases hl : lookupKey fs "capabilities" with
        | none => exact ⟨.undefined, by simp [readFieldL, hl], by simp [addrs]⟩
        | some v => exact ⟨v, by simp [readFieldL, hl], hfield v hl⟩
      | null => exact ⟨_, rfl, hcaps⟩
      | bool b => exact ⟨_, rfl, hcaps⟩
      | num q => exact ⟨_, rfl, hcaps⟩
      | str s => exact ⟨_, rfl, hcaps⟩
      | bigI z => exact ⟨_, rfl, hcaps⟩
      | fn a2 fid => exact ⟨_, rfl, hcaps⟩
      | fnWrap a2 fid => exact ⟨_, rfl, hcaps⟩
      | arr a2 xs => exact ⟨_, rfl, hcaps⟩
      | obj a2 p2 fs2 => exact ⟨_, rfl, hcaps⟩
    obtain ⟨caps2, hm, hc2⟩ := hcaps2
    obtain ⟨g1, g2, g3⟩ := copyFields_spec fs
      (fun kv _ m => copy_spec kv.2 m) (n + 1)
    refine ⟨(caps2, (copyFields fs (n + 1)).2),
      .obj n p (setKey (copyFields fs (n + 1)).1 "capabilities" caps2),
      check.getD true, ?_, ?_, fun hc => by rw [hc]; rfl⟩
    · unfold _interceptOutgoingPayload
      rw [if_pos rfl, hm]
      dsimp only
      simp [copy, writeFieldL]
    · intro b hb hbv
      have hge : n ≤ b := by
        simp only [addrs, List.mem_cons] at hb
        rcases hb with rfl | hb
        · exact le_refl b
        · obtain ⟨kv, hkv, hbkv⟩ := addrsFields_mem hb
          rcases mem_setKey _ _ _ kv hkv with hkv2 | rfl
          · exact le_trans (Nat.le_succ n)
              (g2 b (mem_addrsFields_of_mem hkv2 hbkv))
          · rw [hc2] at hbkv
            simp at hbkv
      exact absurd (hfresh b hbv) (not_lt.mpr hge)
  · intro op d c hop
    simp [_interceptOutgoingPayload, hop]

/-- C8 witness: the no-mutation property at the concrete record
`{capabilities: 999}` with stored bitmask 5 and an omitted flag. -/
theorem outgoing_no_mutation_witness :
    (addrs (LValue.num 5) = []) ∧
    (∃ st d2 flag,
      _interceptOutgoingPayload (.num 5) 1 2
          (.obj 0 none [("capabilities", .num 999)]) none =
        .ok (st, (2, d2, flag)) ∧
      (∀ b ∈ addrs d2,
        b ∉ addrs (LValue.obj 0 none [("capabilities", .num 999)])) ∧
      ((none : Option Bool) = none → flag = true)) :=
  ⟨rfl,
    (outgoing_no_mutation (.num 5) 1 0 none [("capabilities", .num 999)] none
      rfl
      (fun v hv => by
        simp [lookupKey] at hv
        subst hv
        simp [addrs])
      (by intro b hb; simp [addrs, addrsFields] at hb; omega)).1⟩

end ReverseTk
